import Mathlib

/-
Verification of the computational core of the Polymarket Portugal monitor
(src/app.py): the depth-weighted fill-price resolver `calculate_fill_price`
and the basket-arbitrage classification performed on the accumulated
buy/sell sums.  Python floats are modelled as rationals; fallible paths
return `Option`.
-/

namespace Polymarket

/-- A raw order record as received from the order-book API.  In the Python
source each order is a dict; the `price` / `size` keys may be absent
(outer `Option` is `none`), and a present value may fail conversion by
`float(...)` (inner `Option` is `none`). -/
structure RawOrder where
  price : Option (Option ℚ)
  size : Option (Option ℚ)
deriving DecidableEq, Repr

/-- Embedding of the comprehension in `calculate_fill_price`:
`[(float(o['price']), float(o['size'])) for o in orders if 'price' in o and 'size' in o]`
together with the surrounding `try/except`: an entry lacking either key is
filtered out, while a conversion failure on a kept entry raises and makes
the whole call return `None` (modelled as `none` for the whole parse). -/
def parseOrders : List RawOrder → Option (List (ℚ × ℚ))
  | [] => some []
  | o :: rest =>
    match o.price, o.size with
    | some pv, some sv =>
      match pv, sv with
      | some p, some s => (parseOrders rest).map (fun l => (p, s) :: l)
      | _, _ => none
    | _, _ => parseOrders rest

/-- Embedding of the book-walking loop of `calculate_fill_price`: given the
parsed order list, the running `total_cost` and `size_filled`, and the
`size_needed`, returns the final `(total_cost, size_filled)` pair.  The
loop consumes `min(size, size_needed - size_filled)` from each order and
breaks as soon as `size_filled >= size_needed`. -/
def fillWalk : List (ℚ × ℚ) → ℚ → ℚ → ℚ → ℚ × ℚ
  | [], total_cost, size_filled, _ => (total_cost, size_filled)
  | (price, size) :: rest, total_cost, size_filled, size_needed =>
    let size_to_fill := min size (size_needed - size_filled)
    let cost := total_cost + size_to_fill * price
    let filled := size_filled + size_to_fill
    if size_needed ≤ filled then (cost, filled)
    else fillWalk rest cost filled size_needed

/-- Embedding of `calculate_fill_price(orders, size_needed)` from
src/app.py lines 44-64: empty input returns `None`; a conversion failure
returns `None`; an empty parsed list returns `None`; then the book is
walked and if `size_filled < size_needed` the result is `None`, else
`total_cost / size_filled`. -/
def calculate_fill_price (orders : List RawOrder) (size_needed : ℚ) : Option ℚ :=
  if orders = [] then none
  else
    match parseOrders orders with
    | none => none
    | some order_list =>
      if order_list = [] then none
      else
        let w := fillWalk order_list 0 0 size_needed
        if w.2 < size_needed then none
        else some (w.1 / w.2)

/-- A well-formed raw order built from a plain `(price, size)` pair: both
keys present, both values convertible. -/
def mkOrder (p s : ℚ) : RawOrder := ⟨some (some p), some (some s)⟩

/-- `calculate_fill_price` applied to a plain list of `(price, size)`
pairs, the shape every claim about the resolver's arithmetic uses. -/
def calcFill (ol : List (ℚ × ℚ)) (t : ℚ) : Option ℚ :=
  calculate_fill_price (ol.map fun ps => mkOrder ps.1 ps.2) t

/-- Total size resting in a book. -/
def sumSizes (ol : List (ℚ × ℚ)) : ℚ := (ol.map Prod.snd).sum

/-- Ghost companion of `fillWalk`: the list of `(price, consumed)` pairs
the walk actually consumes, in walk order.  Needed to state which asks
were "actually consumed to reach the target". -/
def consumedList : List (ℚ × ℚ) → ℚ → ℚ → List (ℚ × ℚ)
  | [], _, _ => []
  | (price, size) :: rest, size_filled, size_needed =>
    let c := min size (size_needed - size_filled)
    if size_needed ≤ size_filled + c then [(price, c)]
    else (price, c) :: consumedList rest (size_filled + c) size_needed

/-- Total cost of a consumed list (sum of `consumed * price`). -/
def consumedCost (L : List (ℚ × ℚ)) : ℚ := (L.map fun pc => pc.2 * pc.1).sum

/-- Total volume of a consumed list. -/
def consumedSize (L : List (ℚ × ℚ)) : ℚ := (L.map Prod.snd).sum

/-- Arbitrage classification emitted by the dashboard. -/
inductive ArbSignal
  | buy
  | sell
  | balanced
deriving DecidableEq, Repr

/-- Embedding of the classification at src/app.py lines 303-310:
`if total_buy * 100 < 100` emits the buy-basket signal, `elif
total_sell * 100 > 100` the sell-basket signal, else no opportunity.
`total_buy` accumulates the per-candidate ask-side prices and
`total_sell` the bid-side prices. -/
def classify_arbitrage (total_buy total_sell : ℚ) : ArbSignal :=
  if total_buy * 100 < 100 then ArbSignal.buy
  else if total_sell * 100 > 100 then ArbSignal.sell
  else ArbSignal.balanced

/-- The classification as the specification words it (for comparison with
`classify_arbitrage`): `sum_bids < low` gives the buy-the-basket signal,
else `sum_asks > high` gives the sell-the-basket signal, else balanced. -/
def evaluate_basket_spec (sum_bids sum_asks low high : ℚ) : ArbSignal :=
  if sum_bids < low then ArbSignal.buy
  else if sum_asks > high then ArbSignal.sell
  else ArbSignal.balanced

/-- Embedding of the accumulation at src/app.py lines 255-279: for each
candidate the price is added only when it is truthy in Python, i.e.
skipped when it is `None` and also when it is exactly `0.0`. -/
def accumTruthy : List (Option ℚ) → ℚ
  | [] => 0
  | none :: rest => accumTruthy rest
  | some x :: rest => if x = 0 then accumTruthy rest else x + accumTruthy rest

/-! ### Basic lemmas about the embedding -/

theorem parseOrders_map_mkOrder (ol : List (ℚ × ℚ)) :
    parseOrders (ol.map fun ps => mkOrder ps.1 ps.2) = some ol := by
  induction ol with
  | nil => rfl
  | cons ps rest ih =>
    simp only [List.map_cons, mkOrder] at ih ⊢
    simp [parseOrders, ih]

theorem calcFill_eq_walk (ol : List (ℚ × ℚ)) (t : ℚ) (h : ol ≠ []) :
    calcFill ol t =
      if (fillWalk ol 0 0 t).2 < t then none
      else some ((fillWalk ol 0 0 t).1 / (fillWalk ol 0 0 t).2) := by
  unfold calcFill calculate_fill_price
  rw [parseOrders_map_mkOrder]
  simp [h]

theorem fillWalk_consumed (l : List (ℚ × ℚ)) :
    ∀ cost f t, fillWalk l cost f t =
      (cost + consumedCost (consumedList l f t),
       f + consumedSize (consumedList l f t)) := by
  induction l with
  | nil =>
    intro cost f t
    simp [fillWalk, consumedList, consumedCost, consumedSize]
  | cons ps rest ih =>
    intro cost f t
    obtain ⟨price, size⟩ := ps
    simp only [fillWalk, consumedList]
    split_ifs with h
    · simp only [consumedCost, consumedSize, List.map_cons, List.map_nil,
        List.sum_cons, List.sum_nil, Prod.mk.injEq]
      constructor <;> ring
    · rw [ih]
      simp only [consumedCost, consumedSize, List.map_cons, List.sum_cons,
        Prod.mk.injEq]
      constructor <;> ring

theorem sumSizes_nonneg (l : List (ℚ × ℚ)) (h : ∀ ps ∈ l, 0 ≤ ps.2) :
    0 ≤ sumSizes l := by
  unfold sumSizes
  apply List.sum_nonneg
  intro x hx
  obtain ⟨ps, hps, rfl⟩ := List.mem_map.mp hx
  exact h ps hps

theorem consumedSize_eq (l : List (ℚ × ℚ)) :
    ∀ f t, (∀ ps ∈ l, 0 ≤ ps.2) → f ≤ t →
      consumedSize (consumedList l f t) = min (sumSizes l) (t - f) := by
  induction l with
  | nil =>
    intro f t _ hft
    simp only [consumedList, consumedSize, sumSizes, List.map_nil, List.sum_nil]
    rw [min_eq_left]
    linarith
  | cons ps rest ih =>
    intro f t hsz hft
    obtain ⟨price, size⟩ := ps
    have hs : 0 ≤ size := hsz (price, size) (List.mem_cons_self _ _)
    have hrest : ∀ q ∈ rest, 0 ≤ q.2 := fun q hq => hsz q (List.mem_cons_of_mem _ hq)
    have hrest0 : 0 ≤ sumSizes rest := sumSizes_nonneg rest hrest
    have hsum : sumSizes ((price, size) :: rest) = size + sumSizes rest := by
      simp [sumSizes]
    simp only [consumedList]
    split_ifs with h
    · have hmin : min size (t - f) = t - f :=
        le_antisymm (min_le_right _ _) (by linarith)
      simp only [consumedSize, List.map_cons, List.map_nil, List.sum_cons,
        List.sum_nil, hmin, hsum]
      rw [min_eq_right]
      · ring
      · have : min size (t - f) ≤ size := min_le_left _ _
        linarith
    · have hlt : min size (t - f) < t - f := by linarith
      have hmin : min size (t - f) = size := by
        rcases min_choice size (t - f) with hc | hc
        · exact hc
        · rw [hc] at hlt; linarith
      rw [hmin] at h ⊢
      simp only [consumedSize, List.map_cons, List.sum_cons]
      have := ih (f + size) t hrest (by linarith)
      simp only [consumedSize] at this
      rw [this, hsum]
      rcases le_total (sumSizes rest) (t - (f + size)) with hc | hc
      · rw [min_eq_left hc, min_eq_left (by linarith)]
      · rw [min_eq_right hc, min_eq_right (by linarith)]
        ring

theorem consumed_nonneg (l : List (ℚ × ℚ)) :
    ∀ f t, (∀ ps ∈ l, 0 ≤ ps.2) → f ≤ t →
      ∀ pc ∈ consumedList l f t, 0 ≤ pc.2 := by
  induction l with
  | nil => intro f t _ _ pc hpc; simp [consumedList] at hpc
  | cons ps rest ih =>
    intro f t hsz hft pc hpc
    obtain ⟨price, size⟩ := ps
    have hs : 0 ≤ size := hsz (price, size) (List.mem_cons_self _ _)
    have hc0 : 0 ≤ min size (t - f) := le_min hs (by linarith)
    simp only [consumedList] at hpc
    split_ifs at hpc with h
    · simp only [List.mem_singleton] at hpc
      rw [hpc]
      exact hc0
    · rcases List.mem_cons.mp hpc with hh | hh
      · rw [hh]; exact hc0
      · have hlt : min size (t - f) < t - f := by linarith
        have hmin : min size (t - f) = size := by
          rcases min_choice size (t - f) with hc | hc
          · exact hc
          · rw [hc] at hlt; linarith
        refine ih (f + min size (t - f)) t
          (fun q hq => hsz q (List.mem_cons_of_mem _ hq)) ?_ pc hh
        linarith

theorem consumed_price_mem (l : List (ℚ × ℚ)) :
    ∀ f t, ∀ pc ∈ consumedList l f t, ∃ s, (pc.1, s) ∈ l := by
  induction l with
  | nil => intro f t pc hpc; simp [consumedList] at hpc
  | cons ps rest ih =>
    intro f t pc hpc
    obtain ⟨price, size⟩ := ps
    simp only [consumedList] at hpc
    split_ifs at hpc with h
    · simp only [List.mem_singleton] at hpc
      exact ⟨size, by rw [hpc]; exact List.mem_cons_self _ _⟩
    · rcases List.mem_cons.mp hpc with hh | hh
      · exact ⟨size, by rw [hh]; exact List.mem_cons_self _ _⟩
      · obtain ⟨s, hs⟩ := ih _ t pc hh
        exact ⟨s, List.mem_cons_of_mem _ hs⟩

theorem consumedCost_le (L : List (ℚ × ℚ)) (M : ℚ)
    (h0 : ∀ pc ∈ L, 0 ≤ pc.2) (hM : ∀ pc ∈ L, 0 < pc.2 → pc.1 ≤ M) :
    consumedCost L ≤ M * consumedSize L := by
  induction L with
  | nil => simp [consumedCost, consumedSize]
  | cons pc rest ih =>
    obtain ⟨p, c⟩ := pc
    have hc : 0 ≤ c := h0 (p, c) (List.mem_cons_self _ _)
    have hterm : c * p ≤ M * c := by
      rcases eq_or_lt_of_le hc with h | h
      · rw [← h]; ring_nf; simp
      · have hp := hM (p, c) (List.mem_cons_self _ _) h
        nlinarith
    have hrest := ih (fun q hq => h0 q (List.mem_cons_of_mem _ hq))
      (fun q hq hq2 => hM q (List.mem_cons_of_mem _ hq) hq2)
    simp only [consumedCost, consumedSize, List.map_cons, List.sum_cons] at *
    nlinarith

theorem consumedCost_ge (L : List (ℚ × ℚ)) (m : ℚ)
    (h0 : ∀ pc ∈ L, 0 ≤ pc.2) (hm : ∀ pc ∈ L, m ≤ pc.1) :
    m * consumedSize L ≤ consumedCost L := by
  induction L with
  | nil => simp [consumedCost, consumedSize]
  | cons pc rest ih =>
    obtain ⟨p, c⟩ := pc
    have hc : 0 ≤ c := h0 (p, c) (List.mem_cons_self _ _)
    have hp : m ≤ p := hm (p, c) (List.mem_cons_self _ _)
    have hterm : m * c ≤ c * p := by nlinarith
    have hrest := ih (fun q hq => h0 q (List.mem_cons_of_mem _ hq))
      (fun q hq => hm q (List.mem_cons_of_mem _ hq))
    simp only [consumedCost, consumedSize, List.map_cons, List.sum_cons] at *
    nlinarith

/-! ### Claim theorems for the depth-weighted price resolver -/

/-- C1: the claim says the resolver's result does not depend on the order
of the input list because it sorts defensively.  The code does not sort:
it walks the list as given.  Both lists of the spec's concrete example
happen to agree (both orders are fully consumed there), but with sizes
100 the walk stops inside the first order and the two permutations give
different prices, 0.20 versus 0.10. -/
theorem c1_resolver_is_order_dependent :
    calcFill [(1/5, 50), (1/10, 50)] 100 = some (3/20) ∧
    calcFill [(1/10, 50), (1/5, 50)] 100 = some (3/20) ∧
    calcFill [(1/5, 100), (1/10, 100)] 100 = some (1/5) ∧
    calcFill [(1/10, 100), (1/5, 100)] 100 = some (1/10) := by
  refine ⟨?_, ?_, ?_, ?_⟩ <;>
  · norm_num [calcFill, calculate_fill_price, parseOrders, fillWalk, mkOrder]
    exact ⟨by simp, by simp⟩

/-- C3: whenever the total resting size is strictly below the target
volume, `calculate_fill_price` returns the no-price sentinel `none`,
never `0` and never a partial weighted average. -/
theorem c3_insufficient_depth_returns_none (ol : List (ℚ × ℚ)) (t : ℚ)
    (hsz : ∀ ps ∈ ol, 0 ≤ ps.2) (hlt : sumSizes ol < t) :
    calcFill ol t = none := by
  rcases eq_or_ne ol [] with rfl | hne
  · rfl
  · have h0t : (0:ℚ) ≤ t := le_trans (sumSizes_nonneg ol hsz) (le_of_lt hlt)
    have hw := fillWalk_consumed ol 0 0 t
    have hsize : consumedSize (consumedList ol 0 t) = sumSizes ol := by
      rw [consumedSize_eq ol 0 t hsz h0t, sub_zero]
      exact min_eq_left (le_of_lt hlt)
    rw [calcFill_eq_walk ol t hne, hw]
    simp only [hsize, zero_add]
    rw [if_pos hlt]

/-- Witness for C3 at the spec's concrete example: a single order of size
50 cannot fill a target of 100. -/
theorem c3_witness : calcFill [(1/10, 50)] 100 = none :=
  c3_insufficient_depth_returns_none [(1/10, 50)] 100 (by norm_num)
    (by norm_num [sumSizes])

/-- C5: a single order of size at least the target volume at price P
resolves to exactly P. -/
theorem c5_single_order_exact_price (P s t : ℚ) (ht : 0 < t) (hs : t ≤ s) :
    calcFill [(P, s)] t = some P := by
  rw [calcFill_eq_walk _ _ (by simp)]
  have hmin : min s (t - 0) = t := by rw [sub_zero]; exact min_eq_right hs
  simp only [fillWalk, hmin, zero_add, ite_self]
  rw [if_neg (lt_irrefl t)]
  rw [mul_comm, mul_div_assoc, div_self (ne_of_gt ht), mul_one]

/-- Witness for C5: one order of size 100 at price 1/2 and target 100. -/
theorem c5_witness : calcFill [(1/2, 100)] 100 = some (1/2) :=
  c5_single_order_exact_price (1/2) 100 100 (by norm_num) (by norm_num)

/-- C4: with positive sizes, positive target and enough depth, the
resolver returns a price that is at least every lower bound of the prices
present in the book (so never below the cheapest ask present), and at
most every upper bound of the prices of the orders the walk actually
consumed (so never above the most expensive ask consumed to reach the
target). -/
theorem c4_fill_price_bounds (ol : List (ℚ × ℚ)) (t : ℚ)
    (ht : 0 < t) (hsz : ∀ ps ∈ ol, 0 < ps.2) (hdepth : t ≤ sumSizes ol) :
    ∃ p, calcFill ol t = some p ∧
      (∀ m, (∀ ps ∈ ol, m ≤ ps.1) → m ≤ p) ∧
      (∀ M, (∀ pc ∈ consumedList ol 0 t, 0 < pc.2 → pc.1 ≤ M) → p ≤ M) := by
  have hsz' : ∀ ps ∈ ol, 0 ≤ ps.2 := fun ps hps => le_of_lt (hsz ps hps)
  have hne : ol ≠ [] := by
    rintro rfl
    simp [sumSizes] at hdepth
    linarith
  have h0t : (0:ℚ) ≤ t := le_of_lt ht
  have hw := fillWalk_consumed ol 0 0 t
  have hsize : consumedSize (consumedList ol 0 t) = t := by
    rw [consumedSize_eq ol 0 t hsz' h0t, sub_zero]
    exact min_eq_right hdepth
  refine ⟨consumedCost (consumedList ol 0 t) / t, ?_, ?_, ?_⟩
  · rw [calcFill_eq_walk ol t hne, hw]
    simp [hsize]
  · intro m hm
    have h0 := consumed_nonneg ol 0 t hsz' h0t
    have hall : ∀ pc ∈ consumedList ol 0 t, m ≤ pc.1 := by
      intro pc hpc
      obtain ⟨s, hsmem⟩ := consumed_price_mem ol 0 t pc hpc
      exact hm (pc.1, s) hsmem
    have hcost := consumedCost_ge _ m h0 hall
    rw [hsize] at hcost
    rw [le_div_iff₀ ht]
    linarith
  · intro M hM
    have h0 := consumed_nonneg ol 0 t hsz' h0t
    have hcost := consumedCost_le _ M h0 hM
    rw [hsize] at hcost
    rw [div_le_iff₀ ht]
    linarith

/-- Witness for C4 at the spec's example book: two asks of size 50 at
prices 1/10 and 1/5 and target 100. -/
theorem c4_witness :
    ∃ p, calcFill [(1/10, 50), (1/5, 50)] 100 = some p ∧
      (∀ m, (∀ ps ∈ [((1:ℚ)/10, (50:ℚ)), (1/5, 50)], m ≤ ps.1) → m ≤ p) ∧
      (∀ M, (∀ pc ∈ consumedList [(1/10, 50), (1/5, 50)] 0 100,
        0 < pc.2 → pc.1 ≤ M) → p ≤ M) :=
  c4_fill_price_bounds [(1/10, 50), (1/5, 50)] 100 (by norm_num)
    (by norm_num) (by norm_num [sumSizes])

/-- C8: over well-formed input (positive sizes, prices in the unit
interval, positive target) the resolver always yields either the sentinel
or a price, and a returned price is produced by the division by a
strictly positive filled volume (the product identity undoes that
division). -/
theorem c8_total_function (ol : List (ℚ × ℚ)) (t : ℚ) (ht : 0 < t)
    (hwf : ∀ ps ∈ ol, 0 < ps.2 ∧ 0 ≤ ps.1 ∧ ps.1 ≤ 1) :
    (calcFill ol t = none ∨ ∃ p, calcFill ol t = some p) ∧
      ∀ p, calcFill ol t = some p →
        0 < (fillWalk ol 0 0 t).2 ∧
          p * (fillWalk ol 0 0 t).2 = (fillWalk ol 0 0 t).1 := by
  constructor
  · cases h : calcFill ol t with
    | none => exact Or.inl rfl
    | some p => exact Or.inr ⟨p, rfl⟩
  · intro p hp
    have hne : ol ≠ [] := by
      rintro rfl
      simp [calcFill, calculate_fill_price] at hp
    rw [calcFill_eq_walk ol t hne] at hp
    by_cases hlt : (fillWalk ol 0 0 t).2 < t
    · rw [if_pos hlt] at hp
      exact absurd hp (by simp)
    · rw [if_neg hlt] at hp
      have hpos : 0 < (fillWalk ol 0 0 t).2 := lt_of_lt_of_le ht (not_lt.mp hlt)
      have hp' : p = (fillWalk ol 0 0 t).1 / (fillWalk ol 0 0 t).2 :=
        (Option.some.inj hp).symm
      exact ⟨hpos, by rw [hp', div_mul_cancel₀ _ (ne_of_gt hpos)]⟩

/-- Witness for C8: one well-formed order of size 200 at price 1/2 and
target 100. -/
theorem c8_witness :
    (calcFill [(1/2, 200)] 100 = none ∨
      ∃ p, calcFill [(1/2, 200)] 100 = some p) ∧
      ∀ p, calcFill [(1/2, 200)] 100 = some p →
        0 < (fillWalk [(1/2, 200)] 0 0 100).2 ∧
          p * (fillWalk [(1/2, 200)] 0 0 100).2 =
            (fillWalk [(1/2, 200)] 0 0 100).1 :=
  c8_total_function [(1/2, 200)] 100 (by norm_num) (by norm_num)

/-- C9: the claim says an order with non-positive size or an out-of-range
price is rejected with a validation error at the resolver's boundary.
The code performs no such check: a negative-size order is silently folded
into the weighted average (first conjunct), and a price of 3/2, far
outside the unit interval, is silently accepted and returned (second
conjunct). -/
theorem c9_invalid_orders_silently_included :
    calcFill [(1/2, -50), (3/10, 200)] 100 = some (1/5) ∧
    calcFill [(3/2, 100)] 100 = some (3/2) := by
  refine ⟨?_, ?_⟩
  · norm_num [calcFill, calculate_fill_price, parseOrders, fillWalk, mkOrder]
    exact ⟨by simp, by simp⟩
  · norm_num [calcFill, calculate_fill_price, parseOrders, fillWalk, mkOrder]

/-! ### Claim theorems for the basket evaluator -/

/-- C2 counterexample: a basket with bid sum 0.95 (below the claimed low
threshold 0.97) and ask sum 1.00 is classified as a buy signal by the
spec's rule, but the code — whose buy branch tests the ask sum against
the fixed threshold 1.00 — reports balanced.  Conversely a basket with
both sums 0.98 is inside the claimed tolerance band yet the code emits
the buy signal, showing the code's threshold is 1.00, not 0.97. -/
theorem c2_counterexample :
    (evaluate_basket_spec (19/20) 1 (97/100) (103/100) = ArbSignal.buy ∧
      classify_arbitrage 1 (19/20) = ArbSignal.balanced) ∧
    (evaluate_basket_spec (49/50) (49/50) (97/100) (103/100) =
        ArbSignal.balanced ∧
      classify_arbitrage (49/50) (49/50) = ArbSignal.buy) := by
  refine ⟨⟨?_, ?_⟩, ?_, ?_⟩ <;>
    norm_num [evaluate_basket_spec, classify_arbitrage]

/-- C2 amended: the code classifies with both thresholds fixed at 1.00 and
with the buy branch driven by the ask sum (`total_buy`), the sell branch
by the bid sum (`total_sell`): buy iff `total_buy < 1`; sell iff
`1 ≤ total_buy` and `1 < total_sell`; balanced otherwise. -/
theorem c2_classification_fixed_thresholds (total_buy total_sell : ℚ) :
    (classify_arbitrage total_buy total_sell = ArbSignal.buy ↔
      total_buy < 1) ∧
    (classify_arbitrage total_buy total_sell = ArbSignal.sell ↔
      1 ≤ total_buy ∧ 1 < total_sell) ∧
    (classify_arbitrage total_buy total_sell = ArbSignal.balanced ↔
      1 ≤ total_buy ∧ total_sell ≤ 1) := by
  unfold classify_arbitrage
  split_ifs with h1 h2
  · have hb : total_buy < 1 := by linarith
    exact ⟨⟨fun _ => hb, fun _ => rfl⟩,
      ⟨fun h => by simp at h,
       fun h => absurd hb (not_lt.mpr h.1)⟩,
      ⟨fun h => by simp at h,
       fun h => absurd hb (not_lt.mpr h.1)⟩⟩
  · have hb : 1 ≤ total_buy := by
      have := not_lt.mp h1
      linarith
    have hs : 1 < total_sell := by linarith
    exact ⟨⟨fun h => by simp at h,
       fun h => absurd h (not_lt.mpr hb)⟩,
      ⟨fun _ => ⟨hb, hs⟩, fun _ => rfl⟩,
      ⟨fun h => by simp at h,
       fun h => absurd hs (not_lt.mpr h.2)⟩⟩
  · have hb : 1 ≤ total_buy := by
      have := not_lt.mp h1
      linarith
    have hs : total_sell ≤ 1 := by
      have := not_lt.mp h2
      linarith
    exact ⟨⟨fun h => by simp at h,
       fun h => absurd h (not_lt.mpr hb)⟩,
      ⟨fun h => by simp at h,
       fun h => absurd h.2 (not_lt.mpr hs)⟩,
      ⟨fun _ => ⟨hb, hs⟩, fun _ => rfl⟩⟩

/-- C6 counterexample: at the claim's own example — bids 0.30, 0.25, 0.20,
0.28 accumulating to exactly 1.03 — with an ask sum also 1.03 the code
emits the sell signal, not Balanced: the code has no configurable high
threshold 1.03, its boundary sits at 1.00. -/
theorem c6_counterexample :
    accumTruthy [some (3/10), some (1/4), some (1/5), some (7/25)] =
      103/100 ∧
    classify_arbitrage (103/100)
      (accumTruthy [some (3/10), some (1/4), some (1/5), some (7/25)]) =
      ArbSignal.sell ∧
    ArbSignal.sell ≠ ArbSignal.balanced := by
  refine ⟨by norm_num [accumTruthy], ?_, by simp⟩
  norm_num [accumTruthy, classify_arbitrage]

/-- C6 amended: the code's thresholds are both the fixed value 1.00, and a
basket sum landing exactly on this threshold is classified Balanced: both
comparisons are strict, so the boundary is inclusive on the Balanced side
for both sums. -/
theorem c6_boundary_balanced (total_buy total_sell : ℚ)
    (hb : 1 ≤ total_buy) (hs : total_sell ≤ 1) :
    classify_arbitrage total_buy total_sell = ArbSignal.balanced := by
  unfold classify_arbitrage
  rw [if_neg (by rw [not_lt]; linarith), if_neg (by rw [not_lt]; linarith)]

/-- Witness for C6 at the exact boundary: both sums exactly 1.00. -/
theorem c6_witness : classify_arbitrage 1 1 = ArbSignal.balanced :=
  c6_boundary_balanced 1 1 le_rfl le_rfl

/-- C7: the accumulated basket sum equals the sum of all non-`none`
values: a missing (`none`) price is skipped rather than contributing,
and the only other values Python truthiness skips are exact zeros, which
do not change the sum. -/
theorem c7_sum_excludes_missing (vals : List (Option ℚ)) :
    accumTruthy vals = (vals.filterMap id).sum := by
  induction vals with
  | nil => rfl
  | cons v rest ih =>
    cases v with
    | none => simp [accumTruthy, ih]
    | some x =>
      by_cases hx : x = 0
      · simp [accumTruthy, hx, ih]
      · simp [accumTruthy, hx, ih]

/-! ### Claim theorems for the raw-order parsing boundary -/

theorem parseOrders_all_keyless : ∀ (orders : List RawOrder),
    (∀ o ∈ orders, o.price = none ∨ o.size = none) →
    parseOrders orders = some [] := by
  intro orders
  induction orders with
  | nil => intro _; rfl
  | cons o rest ih =>
    intro h
    have hrest := ih (fun q hq => h q (List.mem_cons_of_mem _ hq))
    obtain ⟨op, os⟩ := o
    rcases h _ (List.mem_cons_self _ _) with ho | ho <;> simp at ho
    · subst ho
      cases os <;> simp [parseOrders, hrest]
    · subst ho
      cases op <;> simp [parseOrders, hrest]

theorem parseOrders_conv_failure : ∀ (orders : List RawOrder),
    (∃ o ∈ orders, (o.price ≠ none ∧ o.size ≠ none) ∧
      (o.price = some none ∨ o.size = some none)) →
    parseOrders orders = none := by
  intro orders
  induction orders with
  | nil => rintro ⟨o, ho, _⟩; simp at ho
  | cons o rest ih =>
    rintro ⟨q, hq, ⟨hqp, hqs⟩, hbad⟩
    rcases List.mem_cons.mp hq with rfl | hmem
    · obtain ⟨op, os⟩ := q
      obtain ⟨pv, hpv⟩ := Option.ne_none_iff_exists'.mp hqp
      obtain ⟨sv, hsv⟩ := Option.ne_none_iff_exists'.mp hqs
      simp only at hpv hsv
      subst hpv hsv
      rcases hbad with hb | hb <;> simp only [Option.some.injEq] at hb <;>
        subst hb
      · cases sv <;> simp [parseOrders]
      · cases pv <;> simp [parseOrders]
    · have hrest := ih ⟨q, hmem, ⟨hqp, hqs⟩, hbad⟩
      obtain ⟨op, os⟩ := o
      cases op with
      | none => cases os <;> simp [parseOrders, hrest]
      | some pv =>
        cases os with
        | none => simp [parseOrders, hrest]
        | some sv => cases pv <;> cases sv <;> simp [parseOrders, hrest]

/-- C10 counterexample: the first entry's price value fails conversion to
float, yet because that entry lacks a `size` key the comprehension skips
it before any conversion is attempted, and the resolver computes a price
from the remaining entry instead of returning the sentinel. -/
theorem c10_counterexample :
    (RawOrder.mk (some none) none) ∈
      [RawOrder.mk (some none) none, mkOrder (1/10) 200] ∧
    (RawOrder.mk (some none) none).price = some none ∧
    calculate_fill_price
      [RawOrder.mk (some none) none, mkOrder (1/10) 200] 100 =
      some (1/10) := by
  refine ⟨List.mem_cons_self _ _, rfl, ?_⟩
  norm_num [calculate_fill_price, parseOrders, fillWalk, mkOrder]
  intro h
  simp at h

/-- C10 amended: the resolver returns the sentinel for the whole call when
the input list is empty, when no entry carries both keys, or when any
entry that carries both a price and a size key holds a value that fails
conversion to float. -/
theorem c10_parse_failures_return_none (orders : List RawOrder) (t : ℚ) :
    calculate_fill_price [] t = none ∧
    ((∀ o ∈ orders, o.price = none ∨ o.size = none) →
      calculate_fill_price orders t = none) ∧
    ((∃ o ∈ orders, (o.price ≠ none ∧ o.size ≠ none) ∧
        (o.price = some none ∨ o.size = some none)) →
      calculate_fill_price orders t = none) := by
  refine ⟨rfl, ?_, ?_⟩
  · intro h
    rcases eq_or_ne orders [] with rfl | hne
    · rfl
    · unfold calculate_fill_price
      rw [parseOrders_all_keyless orders h]
      simp [hne]
  · intro h
    have hne : orders ≠ [] := by
      rintro rfl
      obtain ⟨o, ho, _⟩ := h
      simp at ho
    unfold calculate_fill_price
    rw [parseOrders_conv_failure orders h]
    simp [hne]

/-- Witness for C10: a list whose only entry lacks the size key, and a
list whose only entry has an unconvertible size value, both resolve to
the sentinel. -/
theorem c10_witness :
    calculate_fill_price [RawOrder.mk (some (some (1/2))) none] 100 =
        none ∧
      calculate_fill_price
        [RawOrder.mk (some (some (1/2))) (some none)] 100 = none :=
  ⟨(c10_parse_failures_return_none
      [RawOrder.mk (some (some (1/2))) none] 100).2.1 (by simp),
   (c10_parse_failures_return_none
      [RawOrder.mk (some (some (1/2))) (some none)] 100).2.2
     ⟨RawOrder.mk (some (some (1/2))) (some none),
      List.mem_cons_self _ _, ⟨by simp, by simp⟩, Or.inr rfl⟩⟩

end Polymarket
